import Mathlib

/-!
Shallow embedding of the seaair-mobile-app-api in-memory engines:
* `MessageQueue` (src/src/messageQueue.js): mobile→controller FIFO queues and
  controller→mobile latest-value slots, both with an 11-minute TTL;
* `RateLimiter` (src/unnamed/part_001): per-key sliding 30-second window
  request counter with a 25-request limit.

JavaScript `Map` objects are modelled as association lists (`JMap`): `set`
replaces the first binding in place or appends a fresh one, `delete` removes
the first binding, `get` finds the first binding — exactly the behaviour of a
JS `Map`, whose keys are always distinct (`NodupKeys` below captures that
reachable-state fact where a proof needs it).  Times are `Int` milliseconds
(`Date.now()` readings), passed explicitly to each operation.  Message fields
other than `expiresAt` are collapsed into an uninterpreted `payload`, since
the engine never inspects them.  Stored messages always carry `expiresAt`
(both `add*` operations assign it), so the model makes the field total.
-/

namespace SeaAir

abbrev Key := String

/-- Association-list model of a JavaScript `Map`. -/
structure JMap (α : Type) where
  entries : List (Key × α)
deriving Repr, DecidableEq

namespace JMap

variable {α : Type}

def empty : JMap α := ⟨[]⟩

/-- JS `Map.prototype.get`: the value of the first binding for `k`, if any. -/
def getEntry : List (Key × α) → Key → Option α
  | [], _ => none
  | p :: rest, k => if p.1 = k then some p.2 else getEntry rest k

def get? (m : JMap α) (k : Key) : Option α := getEntry m.entries k

/-- JS `Map.prototype.has`. -/
def has (m : JMap α) (k : Key) : Bool := (m.get? k).isSome

/-- JS `Map.prototype.set`: overwrite the first binding in place, else append. -/
def setEntries : List (Key × α) → Key → α → List (Key × α)
  | [], k, v => [(k, v)]
  | p :: rest, k, v => if p.1 = k then (k, v) :: rest else p :: setEntries rest k v

def set (m : JMap α) (k : Key) (v : α) : JMap α := ⟨setEntries m.entries k v⟩

/-- JS `Map.prototype.delete`: remove the first binding for `k`. -/
def delEntries : List (Key × α) → Key → List (Key × α)
  | [], _ => []
  | p :: rest, k => if p.1 = k then rest else p :: delEntries rest k

def delete (m : JMap α) (k : Key) : JMap α := ⟨delEntries m.entries k⟩

/-- JS `Map.prototype.size`: a JS map has one binding per key. -/
def size (m : JMap α) : Nat := m.entries.length

def keysOf (l : List (Key × α)) : List Key := l.map Prod.fst

/-- Reachable JS maps never hold two bindings for the same key. -/
def NodupKeys (l : List (Key × α)) : Prop := (keysOf l).Nodup

instance (l : List (Key × α)) : Decidable (NodupKeys l) := by
  unfold NodupKeys; infer_instance

end JMap

/-- A queued message: uninterpreted payload plus the absolute expiry instant
(ms).  The engine assigns `expiresAt` at insertion, so it is total here. -/
structure Message where
  payload : Nat
  expiresAt : Int
deriving Repr, DecidableEq

/-- 11 minutes in milliseconds, the fixed TTL of both queues. -/
def TTL : Int := 11 * 60 * 1000

structure QueueState where
  mobileAppQueue : JMap (List Message)
  controllerQueue : JMap Message
deriving Repr, DecidableEq

namespace MessageQueue

/-- Fresh `MessageQueue` instance: both maps empty. -/
def initState : QueueState := ⟨JMap.empty, JMap.empty⟩

/-- Source `addMobileAppMessage(controllerId, message)`: stamp
`expiresAt = Date.now() + 11*60*1000` (overwriting any caller-supplied value)
and push onto the per-controller array, creating it when absent. -/
def addMobileAppMessage (s : QueueState) (now : Int) (controllerId : Key)
    (message : Message) : QueueState :=
  let messageWithExpiry : Message := { message with expiresAt := now + TTL }
  let queue := (s.mobileAppQueue.get? controllerId).getD []
  { s with mobileAppQueue :=
      s.mobileAppQueue.set controllerId (queue ++ [messageWithExpiry]) }

/-- Source `addControllerMessage(controllerId, message)`: stamp the expiry and store
as the single latest message for the controller. -/
def addControllerMessage (s : QueueState) (now : Int) (controllerId : Key)
    (message : Message) : QueueState :=
  let messageWithExpiry : Message := { message with expiresAt := now + TTL }
  { s with controllerQueue := s.controllerQueue.set controllerId messageWithExpiry }

/-- Source `cleanupExpiredMessages`: shift expired messages off the front of the
array while `now > queue[0].expiresAt`. -/
def cleanupExpiredMessages (now : Int) : List Message → List Message
  | [] => []
  | msg :: rest =>
    if now > msg.expiresAt then cleanupExpiredMessages now rest else msg :: rest

/-- Source `getMobileAppMessage(controllerId)`: drop the expired prefix (mutating the
stored array in place — when that empties it the key still maps to `[]`),
then shift and return the head; the key is deleted when the array empties
through the shift. -/
def getMobileAppMessage (s : QueueState) (now : Int) (controllerId : Key) :
    Option Message × QueueState :=
  match s.mobileAppQueue.get? controllerId with
  | none => (none, s)
  | some queue =>
    if queue.isEmpty then (none, s)
    else
      match cleanupExpiredMessages now queue with
      | [] => (none, { s with mobileAppQueue := s.mobileAppQueue.set controllerId [] })
      | msg :: rest =>
        if rest.isEmpty then
          (some msg, { s with mobileAppQueue := s.mobileAppQueue.delete controllerId })
        else
          (some msg, { s with mobileAppQueue := s.mobileAppQueue.set controllerId rest })

/-- Source `getControllerMessage(controllerId)`: delete-on-read of the slot; an
expired slot is deleted and `none` is returned. -/
def getControllerMessage (s : QueueState) (now : Int) (controllerId : Key) :
    Option Message × QueueState :=
  match s.controllerQueue.get? controllerId with
  | none => (none, s)
  | some message =>
    if now > message.expiresAt then
      (none, { s with controllerQueue := s.controllerQueue.delete controllerId })
    else
      (some message, { s with controllerQueue := s.controllerQueue.delete controllerId })

/-- The mobile-queue half of `cleanupAllExpiredMessages`: filter each array to
the unexpired messages, deleting keys whose filtered array is empty. -/
def cleanMobileEntries (now : Int) :
    List (Key × List Message) → List (Key × List Message)
  | [] => []
  | (controllerId, queue) :: rest =>
    let filteredQueue := queue.filter (fun msg => now ≤ msg.expiresAt)
    if filteredQueue.isEmpty then cleanMobileEntries now rest
    else (controllerId, filteredQueue) :: cleanMobileEntries now rest

/-- The controller-queue half of `cleanupAllExpiredMessages`: delete each slot
whose message has expired. -/
def cleanControllerEntries (now : Int) :
    List (Key × Message) → List (Key × Message)
  | [] => []
  | (controllerId, message) :: rest =>
    if now > message.expiresAt then cleanControllerEntries now rest
    else (controllerId, message) :: cleanControllerEntries now rest

/-- Source `cleanupAllExpiredMessages()`: the periodic (60 s) sweep over both maps. -/
def cleanupAllExpiredMessages (s : QueueState) (now : Int) : QueueState :=
  { mobileAppQueue := ⟨cleanMobileEntries now s.mobileAppQueue.entries⟩,
    controllerQueue := ⟨cleanControllerEntries now s.controllerQueue.entries⟩ }

structure QueueStats where
  mobileAppControllers : Nat
  mobileAppMessages : Nat
  controllerMessages : Nat
deriving Repr, DecidableEq

/-- Source `getStats()`: raw sizes, no expiry filtering. -/
def getStats (s : QueueState) : QueueStats :=
  { mobileAppControllers := s.mobileAppQueue.size,
    mobileAppMessages := (s.mobileAppQueue.entries.map (fun p => p.2.length)).sum,
    controllerMessages := s.controllerQueue.size }

/-- Number of stored mobile-queue messages still unexpired at `now`. -/
def liveMobileCount (s : QueueState) (now : Int) : Nat :=
  (s.mobileAppQueue.entries.map
    (fun p => (p.2.filter (fun msg => now ≤ msg.expiresAt)).length)).sum

/-- Number of stored mobile-queue messages already expired at `now`. -/
def expiredMobileCount (s : QueueState) (now : Int) : Nat :=
  (s.mobileAppQueue.entries.map
    (fun p => (p.2.filter (fun msg => msg.expiresAt < now)).length)).sum

/-- Number of controller slots still unexpired at `now`. -/
def liveControllerCount (s : QueueState) (now : Int) : Nat :=
  (s.controllerQueue.entries.filter (fun p => now ≤ p.2.expiresAt)).length

/-- Number of controller slots already expired at `now`. -/
def expiredControllerCount (s : QueueState) (now : Int) : Nat :=
  (s.controllerQueue.entries.filter (fun p => p.2.expiresAt < now)).length

/-- Invariant of the mobile→controller FIFO map: no stored binding holds an
empty sequence. -/
def MobileNonempty (s : QueueState) : Prop :=
  ∀ p ∈ s.mobileAppQueue.entries, p.2 ≠ []

/-- Run a sequence of `addMobileAppMessage` calls on one key, each with its
own clock reading. -/
def enqueueList (cid : Key) : QueueState → List (Int × Message) → QueueState
  | s, [] => s
  | s, tm :: rest => enqueueList cid (addMobileAppMessage s tm.1 cid tm.2) rest

/-- Run a sequence of `getMobileAppMessage` calls on one key, collecting the
returned messages. -/
def dequeueList (cid : Key) :
    QueueState → List Int → List (Option Message) × QueueState
  | s, [] => ([], s)
  | s, now :: rest =>
    let r := getMobileAppMessage s now cid
    let rs := dequeueList cid r.2 rest
    (r.1 :: rs.1, rs.2)

/-- The messages a run of enqueues stores: each input restamped with
`expiresAt` = its enqueue instant plus the TTL. -/
def stampMsgs (tms : List (Int × Message)) : List Message :=
  tms.map (fun tm => { tm.2 with expiresAt := tm.1 + TTL })

end MessageQueue

structure RateLimiterState where
  requests : JMap (List Int)
deriving Repr, DecidableEq

namespace RateLimiter

/-- Fresh `RateLimiter` instance: empty request map. -/
def initState : RateLimiterState := ⟨JMap.empty⟩

/-- The sliding window length: 30 seconds in milliseconds. -/
def WINDOW : Int := 30 * 1000

/-- Source `checkLimit(key)`: register an empty list for a fresh key, filter the
key's timestamps to those strictly inside the trailing 30-second window,
store the filtered list back, and return `false` iff 25 or more remain. -/
def checkLimit (s : RateLimiterState) (now : Int) (key : Key) :
    Bool × RateLimiterState :=
  let windowStart := now - WINDOW
  let s1 : RateLimiterState :=
    if s.requests.has key then s else ⟨s.requests.set key []⟩
  match s1.requests.get? key with
  | none => (true, s1)
  | some timestamps =>
    let recentTimestamps := timestamps.filter (fun ts => ts > windowStart)
    let s2 : RateLimiterState := ⟨s1.requests.set key recentTimestamps⟩
    if recentTimestamps.length ≥ 25 then (false, s2) else (true, s2)

/-- Source `recordRequest(key)`: append `Date.now()` to the key's timestamp list,
creating it when absent. -/
def recordRequest (s : RateLimiterState) (now : Int) (key : Key) :
    RateLimiterState :=
  let s1 : RateLimiterState :=
    if s.requests.has key then s else ⟨s.requests.set key []⟩
  match s1.requests.get? key with
  | none => s1
  | some timestamps => ⟨s1.requests.set key (timestamps ++ [now])⟩

/-- Body of `cleanup()`: filter every key's list to the trailing window,
deleting keys whose filtered list is empty. -/
def cleanEntries (now : Int) : List (Key × List Int) → List (Key × List Int)
  | [] => []
  | (key, timestamps) :: rest =>
    let recentTimestamps := timestamps.filter (fun ts => ts > now - WINDOW)
    if recentTimestamps.isEmpty then cleanEntries now rest
    else (key, recentTimestamps) :: cleanEntries now rest

/-- Source `cleanup()`: the periodic (60 s) sweep of the request map. -/
def cleanup (s : RateLimiterState) (now : Int) : RateLimiterState :=
  ⟨⟨cleanEntries now s.requests.entries⟩⟩

structure RateLimiterStats where
  trackedKeys : Nat
deriving Repr, DecidableEq

/-- Source `getStats()`: the raw size of the request map. -/
def getStats (s : RateLimiterState) : RateLimiterStats :=
  { trackedKeys := s.requests.size }

/-- The in-window timestamps the limiter holds for `k` at instant `now`. -/
def inWindowOf (s : RateLimiterState) (k : Key) (now : Int) : List Int :=
  ((s.requests.get? k).getD []).filter (fun ts => ts > now - WINDOW)

end RateLimiter

/-! ### Lemmas about the `JMap` association-list model -/

namespace JMap

variable {α : Type}

theorem getEntry_setEntries_self (l : List (Key × α)) (k : Key) (v : α) :
    getEntry (setEntries l k v) k = some v := by
  induction l with
  | nil => simp [setEntries, getEntry]
  | cons p rest ih =>
    by_cases h : p.1 = k
    · simp [setEntries, getEntry, h]
    · simp [setEntries, getEntry, h, ih]

theorem getEntry_setEntries_ne (l : List (Key × α)) (k k' : Key) (v : α)
    (h : k' ≠ k) : getEntry (setEntries l k v) k' = getEntry l k' := by
  induction l with
  | nil => simp [setEntries, getEntry, Ne.symm h]
  | cons p rest ih =>
    by_cases hp : p.1 = k
    · simp [setEntries, getEntry, hp, Ne.symm h]
    · by_cases hp' : p.1 = k'
      · simp [setEntries, getEntry, hp, hp', h]
      · simp [setEntries, getEntry, hp, hp', ih]

theorem getEntry_delEntries_ne (l : List (Key × α)) (k k' : Key)
    (h : k' ≠ k) : getEntry (delEntries l k) k' = getEntry l k' := by
  induction l with
  | nil => simp [delEntries]
  | cons p rest ih =>
    by_cases hp : p.1 = k
    · simp [delEntries, getEntry, hp, Ne.symm h]
    · by_cases hp' : p.1 = k'
      · simp [delEntries, getEntry, hp, hp', h]
      · simp [delEntries, getEntry, hp, hp', ih]

theorem getEntry_eq_none_of_not_mem (l : List (Key × α)) (k : Key)
    (h : k ∉ keysOf l) : getEntry l k = none := by
  induction l with
  | nil => simp [getEntry]
  | cons p rest ih =>
    simp only [keysOf, List.map_cons, List.mem_cons] at h
    push_neg at h
    have hp : ¬ (p.1 = k) := fun hh => h.1 hh.symm
    simpa [getEntry, hp] using ih (by simpa [keysOf] using h.2)

theorem getEntry_delEntries_self (l : List (Key × α)) (k : Key)
    (h : NodupKeys l) : getEntry (delEntries l k) k = none := by
  induction l with
  | nil => simp [delEntries, getEntry]
  | cons p rest ih =>
    simp only [NodupKeys, keysOf, List.map_cons, List.nodup_cons] at h
    by_cases hp : p.1 = k
    · have : k ∉ keysOf rest := by rw [← hp]; exact fun hm => h.1 (by simpa [keysOf] using hm)
      simpa [delEntries, hp] using getEntry_eq_none_of_not_mem rest k this
    · simpa [delEntries, getEntry, hp] using ih h.2

theorem mem_keysOf_setEntries (l : List (Key × α)) (k k' : Key) (v : α)
    (h : k' ∈ keysOf (setEntries l k v)) : k' ∈ keysOf l ∨ k' = k := by
  induction l with
  | nil => simpa [setEntries, keysOf] using h
  | cons p rest ih =>
    by_cases hp : p.1 = k
    · simp only [setEntries, hp, if_pos, keysOf, List.map_cons, List.mem_cons] at h ⊢
      rcases h with h | h
      · exact Or.inr h
      · exact Or.inl (Or.inr h)
    · simp only [setEntries, hp, if_neg, not_false_iff, keysOf, List.map_cons,
        List.mem_cons] at h ⊢
      rcases h with h | h
      · exact Or.inl (Or.inl h)
      · rcases ih h with h' | h'
        · exact Or.inl (Or.inr h')
        · exact Or.inr h'

theorem nodup_setEntries (l : List (Key × α)) (k : Key) (v : α)
    (h : NodupKeys l) : NodupKeys (setEntries l k v) := by
  induction l with
  | nil => simp [setEntries, NodupKeys, keysOf]
  | cons p rest ih =>
    simp only [NodupKeys, keysOf, List.map_cons, List.nodup_cons] at h
    by_cases hp : p.1 = k
    · simp only [setEntries, hp, if_pos, NodupKeys, keysOf, List.map_cons,
        List.nodup_cons]
      exact ⟨by rw [← hp]; exact fun hm => h.1 (by simpa [keysOf] using hm), h.2⟩
    · simp only [setEntries, hp, if_neg, not_false_iff, NodupKeys, keysOf,
        List.map_cons, List.nodup_cons]
      constructor
      · intro hm
        rcases mem_keysOf_setEntries rest k p.1 v (by simpa [keysOf] using hm) with
          h' | h'
        · exact h.1 (by simpa [keysOf] using h')
        · exact hp h'
      · exact ih h.2

theorem mem_of_mem_delEntries (l : List (Key × α)) (k : Key)
    (p : Key × α) (h : p ∈ delEntries l k) : p ∈ l := by
  induction l with
  | nil => simp [delEntries] at h
  | cons q rest ih =>
    by_cases hq : q.1 = k
    · simp only [delEntries, hq, if_pos] at h
      exact List.mem_cons_of_mem q h
    · simp only [delEntries, hq, if_neg, not_false_iff, List.mem_cons] at h
      rcases h with h | h
      · exact h ▸ List.mem_cons_self q rest
      · exact List.mem_cons_of_mem q (ih h)

theorem values_setEntries {P : α → Prop} (l : List (Key × α)) (k : Key) (v : α)
    (hl : ∀ p ∈ l, P p.2) (hv : P v) :
    ∀ p ∈ setEntries l k v, P p.2 := by
  induction l with
  | nil =>
    intro p hp
    simp only [setEntries, List.mem_singleton] at hp
    simpa [hp] using hv
  | cons q rest ih =>
    intro p hp
    by_cases hq : q.1 = k
    · simp only [setEntries, hq, if_pos, List.mem_cons] at hp
      rcases hp with hp | hp
      · simpa [hp] using hv
      · exact hl p (List.mem_cons_of_mem q hp)
    · simp only [setEntries, hq, if_neg, not_false_iff, List.mem_cons] at hp
      rcases hp with hp | hp
      · exact hp ▸ hl q (List.mem_cons_self q rest)
      · exact ih (fun r hr => hl r (List.mem_cons_of_mem q hr)) p hp

theorem getEntry_mem (l : List (Key × α)) (k : Key) (v : α)
    (h : getEntry l k = some v) : (k, v) ∈ l := by
  induction l with
  | nil => simp [getEntry] at h
  | cons p rest ih =>
    by_cases hp : p.1 = k
    · simp only [getEntry, hp, if_pos, Option.some.injEq] at h
      have : p = (k, v) := by
        cases p; simp_all
      exact this ▸ List.mem_cons_self p rest
    · simp only [getEntry, hp, if_neg, not_false_iff] at h
      exact List.mem_cons_of_mem p (ih h)

theorem get?_set_self (m : JMap α) (k : Key) (v : α) :
    (m.set k v).get? k = some v := getEntry_setEntries_self m.entries k v

theorem get?_set_ne (m : JMap α) (k k' : Key) (v : α) (h : k' ≠ k) :
    (m.set k v).get? k' = m.get? k' := getEntry_setEntries_ne m.entries k k' v h

theorem get?_delete_self (m : JMap α) (k : Key) (h : NodupKeys m.entries) :
    (m.delete k).get? k = none := getEntry_delEntries_self m.entries k h

theorem get?_delete_ne (m : JMap α) (k k' : Key) (h : k' ≠ k) :
    (m.delete k).get? k' = m.get? k' := getEntry_delEntries_ne m.entries k k' h

end JMap

/-! ### Lemmas about the message-queue engine -/

namespace MessageQueue

/-- The head surviving the expired-prefix shift is itself unexpired. -/
theorem cleanupExpiredMessages_head_not_expired (now : Int) :
    ∀ (q : List Message) (m : Message) (rest : List Message),
      cleanupExpiredMessages now q = m :: rest → ¬ now > m.expiresAt := by
  intro q
  induction q with
  | nil => intro m rest h; simp [cleanupExpiredMessages] at h
  | cons a tail ih =>
    intro m rest h
    by_cases ha : now > a.expiresAt
    · simp only [cleanupExpiredMessages, ha, if_pos] at h
      exact ih m rest h
    · simp only [cleanupExpiredMessages, ha, if_neg, not_false_iff,
        List.cons.injEq] at h
      rw [← h.1]; exact ha

/-- A message returned by `getMobileAppMessage` is unexpired at the call. -/
theorem getMobileAppMessage_some_not_expired (s : QueueState) (now : Int)
    (cid : Key) (m : Message)
    (h : (getMobileAppMessage s now cid).1 = some m) : ¬ now > m.expiresAt := by
  unfold getMobileAppMessage at h
  cases hq : s.mobileAppQueue.get? cid with
  | none => rw [hq] at h; simp at h
  | some queue =>
    rw [hq] at h
    by_cases he : queue.isEmpty
    · simp [he] at h
    · simp only [he, Bool.false_eq_true, if_false] at h
      cases hc : cleanupExpiredMessages now queue with
      | nil => rw [hc] at h; simp at h
      | cons msg rest =>
        rw [hc] at h
        have hm := cleanupExpiredMessages_head_not_expired now queue msg rest hc
        by_cases hr : rest.isEmpty
        · simp only [hr, if_pos, Option.some.injEq] at h
          rw [← h]; exact hm
        · simp only [hr, Bool.false_eq_true, if_false, Option.some.injEq] at h
          rw [← h]; exact hm

/-- A message returned by `getControllerMessage` is unexpired at the call. -/
theorem getControllerMessage_some_not_expired (s : QueueState) (now : Int)
    (cid : Key) (m : Message)
    (h : (getControllerMessage s now cid).1 = some m) : ¬ now > m.expiresAt := by
  unfold getControllerMessage at h
  cases hq : s.controllerQueue.get? cid with
  | none => rw [hq] at h; simp at h
  | some message =>
    rw [hq] at h
    by_cases he : now > message.expiresAt
    · simp [he] at h
    · simp only [he, if_neg, not_false_iff, Option.some.injEq] at h
      rw [← h]; exact he

/-- The state left by `getMobileAppMessage` is the input state, or the input
with the key's array emptied in place, or with the key deleted, or with the
key bound to the nonempty tail of its array. -/
theorem getMobileAppMessage_snd_cases (s : QueueState) (now : Int) (cid : Key) :
    (getMobileAppMessage s now cid).2 = s
    ∨ ((getMobileAppMessage s now cid).2
          = { s with mobileAppQueue := s.mobileAppQueue.set cid [] }
        ∧ (getMobileAppMessage s now cid).1 = none)
    ∨ (getMobileAppMessage s now cid).2
        = { s with mobileAppQueue := s.mobileAppQueue.delete cid }
    ∨ ∃ rest, rest ≠ []
        ∧ (getMobileAppMessage s now cid).2
            = { s with mobileAppQueue := s.mobileAppQueue.set cid rest } := by
  unfold getMobileAppMessage
  cases hq : s.mobileAppQueue.get? cid with
  | none => simp
  | some queue =>
    by_cases he : queue.isEmpty
    · simp [he]
    · simp only [he, Bool.false_eq_true, if_false]
      cases hc : cleanupExpiredMessages now queue with
      | nil => simp
      | cons msg' rest =>
        by_cases hr : rest.isEmpty
        · simp [hr]
        · right; right; right
          refine ⟨rest, by simpa [List.isEmpty_iff] using hr, ?_⟩
          simp [hr]

/-- Every binding surviving the sweep holds a nonempty filtered sequence. -/
theorem cleanMobileEntries_values_nonempty (now : Int) :
    ∀ (l : List (Key × List Message)),
      ∀ p ∈ cleanMobileEntries now l, p.2 ≠ [] := by
  intro l
  induction l with
  | nil => intro p hp; simp [cleanMobileEntries] at hp
  | cons q rest ih =>
    intro p hp
    rcases q with ⟨k, queue⟩
    by_cases hf : (queue.filter (fun msg => now ≤ msg.expiresAt)).isEmpty
    · simp only [cleanMobileEntries, hf, if_pos] at hp
      exact ih p hp
    · simp only [cleanMobileEntries, hf, Bool.false_eq_true, if_false,
        List.mem_cons] at hp
      rcases hp with hp | hp
      · rw [hp]
        simpa [List.isEmpty_iff] using hf
      · exact ih p hp

/-- A list's length splits into the unexpired and the expired part. -/
theorem length_filter_expiry_split {β : Type} (now : Int) (f : β → Int)
    (l : List β) :
    (l.filter (fun a => now ≤ f a)).length
      + (l.filter (fun a => f a < now)).length = l.length := by
  induction l with
  | nil => rfl
  | cons a rest ih =>
    by_cases h : now ≤ f a
    · have h' : ¬ (f a < now) := not_lt.mpr h
      simp [List.filter_cons, h, h']
      omega
    · have h' : f a < now := not_le.mp h
      simp [List.filter_cons, h, h']
      omega

/-- Summing a pointwise-split function over a list splits the sum. -/
theorem sum_map_eq_add {β : Type} (f g h : β → Nat) (l : List β)
    (hf : ∀ a ∈ l, f a = g a + h a) :
    (l.map f).sum = (l.map g).sum + (l.map h).sum := by
  induction l with
  | nil => rfl
  | cons a rest ih =>
    simp only [List.map_cons, List.sum_cons]
    rw [hf a (List.mem_cons_self a rest),
      ih (fun b hb => hf b (List.mem_cons_of_mem a hb))]
    omega

/-- Dequeue on a key whose stored head is unexpired: return the head and
either delete the key (tail empty) or store the tail. -/
theorem getMobileAppMessage_fresh_head (s : QueueState) (now : Int) (cid : Key)
    (m : Message) (rest : List Message)
    (hq : s.mobileAppQueue.get? cid = some (m :: rest))
    (hm : ¬ now > m.expiresAt) :
    getMobileAppMessage s now cid
      = (some m,
          if rest.isEmpty then
            { s with mobileAppQueue := s.mobileAppQueue.delete cid }
          else { s with mobileAppQueue := s.mobileAppQueue.set cid rest }) := by
  have hc : cleanupExpiredMessages now (m :: rest) = m :: rest := by
    simp [cleanupExpiredMessages, hm]
  unfold getMobileAppMessage
  rw [hq]
  by_cases hr : rest.isEmpty <;> simp [hc, hr]

/-- Enqueueing onto a key that already holds `q` appends the restamped
messages to `q`. -/
theorem enqueueList_get?_some (cid : Key) :
    ∀ (tms : List (Int × Message)) (s : QueueState) (q : List Message),
      s.mobileAppQueue.get? cid = some q →
      (enqueueList cid s tms).mobileAppQueue.get? cid
        = some (q ++ stampMsgs tms) := by
  intro tms
  induction tms with
  | nil => intro s q hq; simpa [enqueueList, stampMsgs] using hq
  | cons tm rest ih =>
    intro s q hq
    have hadd : (addMobileAppMessage s tm.1 cid tm.2).mobileAppQueue.get? cid
        = some (q ++ [{ tm.2 with expiresAt := tm.1 + TTL }]) := by
      simpa [addMobileAppMessage, hq] using
        JMap.get?_set_self s.mobileAppQueue cid
          (q ++ [{ tm.2 with expiresAt := tm.1 + TTL }])
    have hrec := ih (addMobileAppMessage s tm.1 cid tm.2) _ hadd
    simpa [enqueueList, stampMsgs, List.append_assoc] using hrec

/-- Enqueue runs keep the mobile map's keys duplicate-free. -/
theorem enqueueList_nodup (cid : Key) :
    ∀ (tms : List (Int × Message)) (s : QueueState),
      JMap.NodupKeys s.mobileAppQueue.entries →
      JMap.NodupKeys (enqueueList cid s tms).mobileAppQueue.entries := by
  intro tms
  induction tms with
  | nil => intro s h; simpa [enqueueList] using h
  | cons tm rest ih =>
    intro s h
    refine ih (addMobileAppMessage s tm.1 cid tm.2) ?_
    simpa [addMobileAppMessage, JMap.set] using
      JMap.nodup_setEntries s.mobileAppQueue.entries cid
        (((s.mobileAppQueue.get? cid).getD [])
          ++ [{ tm.2 with expiresAt := tm.1 + TTL }]) h

/-- Draining a key whose stored queue is wholly unexpired returns exactly the
stored messages in order and removes the key. -/
theorem dequeueList_spec (cid : Key) :
    ∀ (q : List Message) (s : QueueState) (nows : List Int),
      JMap.NodupKeys s.mobileAppQueue.entries →
      s.mobileAppQueue.get? cid = some q →
      q ≠ [] →
      nows.length = q.length →
      (∀ u ∈ nows, ∀ mm ∈ q, ¬ u > mm.expiresAt) →
      (dequeueList cid s nows).1 = q.map some
        ∧ (dequeueList cid s nows).2.mobileAppQueue.get? cid = none := by
  intro q
  induction q with
  | nil => intro s nows _ _ hne; exact absurd rfl hne
  | cons m rest ih =>
    intro s nows hnd hq _ hlen hfresh
    cases nows with
    | nil => simp at hlen
    | cons u urest =>
      have hm : ¬ u > m.expiresAt :=
        hfresh u (List.mem_cons_self u urest) m (List.mem_cons_self m rest)
      have hstep := getMobileAppMessage_fresh_head s u cid m rest hq hm
      by_cases hr : rest.isEmpty
      · have hrest : rest = [] := by simpa [List.isEmpty_iff] using hr
        subst hrest
        have hurest : urest = [] := by simpa using hlen
        subst hurest
        constructor
        · simp [dequeueList, hstep]
        · simp only [dequeueList, hstep, List.isEmpty_nil, if_pos]
          exact JMap.get?_delete_self s.mobileAppQueue cid hnd
      · have hrest : rest ≠ [] := by simpa [List.isEmpty_iff] using hr
        have hq1 : ({ s with mobileAppQueue := s.mobileAppQueue.set cid rest} :
              QueueState).mobileAppQueue.get? cid = some rest :=
          JMap.get?_set_self s.mobileAppQueue cid rest
        have hnd1 : JMap.NodupKeys ({ s with
              mobileAppQueue := s.mobileAppQueue.set cid rest} :
              QueueState).mobileAppQueue.entries :=
          JMap.nodup_setEntries s.mobileAppQueue.entries cid rest hnd
        have hlen1 : urest.length = rest.length := by simpa using hlen
        have hfresh1 : ∀ u' ∈ urest, ∀ mm ∈ rest, ¬ u' > mm.expiresAt :=
          fun u' hu' mm hmm =>
            hfresh u' (List.mem_cons_of_mem u hu') mm (List.mem_cons_of_mem m hmm)
        have hrec := ih _ urest hnd1 hq1 hrest hlen1 hfresh1
        constructor
        · simp [dequeueList, hstep, hr, hrec.1]
        · simp only [dequeueList, hstep]
          simpa [hr] using hrec.2

end MessageQueue

/-! ### Claim theorems for the message-queue engine -/

/-- C1 counterexample: an entry inserted at `T = 0` carries
`expiresAt = 660000` (11 minutes), and a take executed at exactly
`T + 11 min = 660000` — a time `≥ T + 11 min` — still returns the entry,
because the code's expiry test is the strict `Date.now() > expiresAt`. -/
theorem take_at_exact_ttl_returns_entry :
    (MessageQueue.getControllerMessage
        (MessageQueue.addControllerMessage MessageQueue.initState 0 "c" ⟨0, 0⟩)
        660000 "c").1 = some ⟨0, 660000⟩ := by decide

/-- C1 (amended): a dequeue/take returns a message only while
`now ≤ expiresAt`, in every state — so an entry inserted at `T` (stamped
`expiresAt = T + TTL`) is treated as absent at every time strictly greater
than `T + 11 minutes`, whether or not a sweep has run in between; at exactly
`T + 11 minutes` the entry is still returned. -/
theorem entry_absent_strictly_after_expiry (s : QueueState) (now : Int)
    (cid : Key) (m : Message) (h : now > m.expiresAt) :
    (MessageQueue.getMobileAppMessage s now cid).1 ≠ some m ∧
    (MessageQueue.getControllerMessage s now cid).1 ≠ some m := by
  constructor
  · intro hc
    exact MessageQueue.getMobileAppMessage_some_not_expired s now cid m hc h
  · intro hc
    exact MessageQueue.getControllerMessage_some_not_expired s now cid m hc h

/-- Witness for C1 (amended) at `now = 1`, `expiresAt = 0`. -/
theorem entry_absent_strictly_after_expiry_witness :
    ((1 : Int) > (0 : Int)) ∧
    ((MessageQueue.getMobileAppMessage MessageQueue.initState 1 "c").1
        ≠ some ⟨0, 0⟩ ∧
      (MessageQueue.getControllerMessage MessageQueue.initState 1 "c").1
        ≠ some ⟨0, 0⟩) :=
  ⟨by decide,
    entry_absent_strictly_after_expiry MessageQueue.initState 1 "c" ⟨0, 0⟩
      (by decide)⟩

/-- C2 counterexample: enqueue one message at `T = 0`, then dequeue at
`660001` (after expiry).  The dequeue's in-place expired-prefix shift empties
the stored array and returns `none`, but the key `"c"` is *not* removed: it
remains bound to the empty sequence, violating the claimed invariant. -/
theorem dequeue_can_leave_empty_sequence :
    ((MessageQueue.getMobileAppMessage
        (MessageQueue.addMobileAppMessage MessageQueue.initState 0 "c" ⟨0, 0⟩)
        660001 "c").2).mobileAppQueue.get? "c" = some [] := by decide

/-- C2 (amended): the no-empty-sequence invariant is preserved by enqueue and
by the sweep, and by any dequeue that returns a message; a dequeue that finds
every remaining entry expired returns `none` and leaves its key bound to the
empty sequence (until the next sweep deletes it). -/
theorem fifo_nonempty_invariant (s : QueueState) (now : Int) (cid : Key)
    (m msg : Message) (hInv : MessageQueue.MobileNonempty s) :
    MessageQueue.MobileNonempty (MessageQueue.addMobileAppMessage s now cid m)
    ∧ MessageQueue.MobileNonempty (MessageQueue.cleanupAllExpiredMessages s now)
    ∧ ((MessageQueue.getMobileAppMessage s now cid).1 = some msg →
        MessageQueue.MobileNonempty (MessageQueue.getMobileAppMessage s now cid).2) := by
  have hInv' : ∀ p ∈ s.mobileAppQueue.entries, p.2 ≠ [] := hInv
  refine ⟨?_, ?_, ?_⟩
  · intro p hp
    simp only [MessageQueue.addMobileAppMessage, JMap.set] at hp
    refine @JMap.values_setEntries _ (fun q => q ≠ [])
      s.mobileAppQueue.entries cid _ hInv' ?_ p hp
    simp
  · intro p hp
    simp only [MessageQueue.cleanupAllExpiredMessages] at hp
    exact MessageQueue.cleanMobileEntries_values_nonempty now
      s.mobileAppQueue.entries p hp
  · intro h
    rcases MessageQueue.getMobileAppMessage_snd_cases s now cid with
      hcase | ⟨hcase, hnone⟩ | hcase | ⟨rest, hrest, hcase⟩
    · rw [hcase]; exact hInv
    · rw [hnone] at h; exact absurd h (by simp)
    · rw [hcase]
      intro p hp
      simp only [JMap.delete] at hp
      exact hInv' p (JMap.mem_of_mem_delEntries s.mobileAppQueue.entries cid p hp)
    · rw [hcase]
      intro p hp
      simp only [JMap.set] at hp
      exact @JMap.values_setEntries _ (fun q => q ≠ [])
        s.mobileAppQueue.entries cid rest hInv' hrest p hp

/-- Witness for C2 (amended) on the empty queue state. -/
theorem fifo_nonempty_invariant_witness :
    MessageQueue.MobileNonempty MessageQueue.initState ∧
    (MessageQueue.MobileNonempty
        (MessageQueue.addMobileAppMessage MessageQueue.initState 0 "c" ⟨0, 0⟩)
      ∧ MessageQueue.MobileNonempty
          (MessageQueue.cleanupAllExpiredMessages MessageQueue.initState 0)
      ∧ ((MessageQueue.getMobileAppMessage MessageQueue.initState 0 "c").1
            = some ⟨0, 0⟩ →
          MessageQueue.MobileNonempty
            (MessageQueue.getMobileAppMessage MessageQueue.initState 0 "c").2)) :=
  have h0 : MessageQueue.MobileNonempty MessageQueue.initState := by
    intro p hp
    simp [MessageQueue.initState, JMap.empty] at hp
  ⟨h0, fifo_nonempty_invariant MessageQueue.initState 0 "c" ⟨0, 0⟩ ⟨0, 0⟩ h0⟩

/-- C9: both insertion operations stamp the stored entry with
`expiresAt = now + 11 minutes`, unconditionally overwriting whatever
`expiresAt` the caller-supplied message carried: the mobile enqueue appends
the restamped entry to the key's sequence, and the controller upsert stores
it as the key's slot. -/
theorem insertion_overwrites_expiry (s : QueueState) (now : Int) (cid : Key)
    (m : Message) :
    (MessageQueue.addMobileAppMessage s now cid m).mobileAppQueue.get? cid
      = some (((s.mobileAppQueue.get? cid).getD [])
          ++ [{ m with expiresAt := now + TTL }])
    ∧ (MessageQueue.addControllerMessage s now cid m).controllerQueue.get? cid
      = some { m with expiresAt := now + TTL } := by
  constructor
  · simpa [MessageQueue.addMobileAppMessage] using
      JMap.get?_set_self s.mobileAppQueue cid
        (((s.mobileAppQueue.get? cid).getD [])
          ++ [{ m with expiresAt := now + TTL }])
  · simpa [MessageQueue.addControllerMessage] using
      JMap.get?_set_self s.controllerQueue cid { m with expiresAt := now + TTL }

/-- C10: the source `getStats` applies no expiry filtering — at every instant `now`,
`mobileAppMessages` equals the unexpired plus the already-expired stored
mobile messages, and `controllerMessages` equals the unexpired plus the
already-expired controller slots, so between sweeps the reported counts
include entries whose expiry has passed. -/
theorem getStats_counts_expired_entries (s : QueueState) (now : Int) :
    (MessageQueue.getStats s).mobileAppMessages
      = MessageQueue.liveMobileCount s now
          + MessageQueue.expiredMobileCount s now
    ∧ (MessageQueue.getStats s).controllerMessages
      = MessageQueue.liveControllerCount s now
          + MessageQueue.expiredControllerCount s now := by
  constructor
  · show (s.mobileAppQueue.entries.map (fun p => p.2.length)).sum
        = (s.mobileAppQueue.entries.map
            (fun p => (p.2.filter (fun msg => now ≤ msg.expiresAt)).length)).sum
          + (s.mobileAppQueue.entries.map
              (fun p => (p.2.filter (fun msg => msg.expiresAt < now)).length)).sum
    exact MessageQueue.sum_map_eq_add _ _ _ s.mobileAppQueue.entries
      (fun p _ =>
        (MessageQueue.length_filter_expiry_split now
          (fun msg => msg.expiresAt) p.2).symm)
  · show s.controllerQueue.entries.length
        = (s.controllerQueue.entries.filter
            (fun p => now ≤ p.2.expiresAt)).length
          + (s.controllerQueue.entries.filter
              (fun p => p.2.expiresAt < now)).length
    exact (MessageQueue.length_filter_expiry_split now
      (fun p => p.2.expiresAt) s.controllerQueue.entries).symm

/-- C4: starting from a state where key `cid` is absent, `n` enqueues
followed by `n` dequeues, none of the dequeues reaching any entry's expiry,
return the `n` entries (restamped at insertion) in exactly enqueue order,
and after the last dequeue the key is absent from the FIFO map. -/
theorem mobile_fifo_order (s : QueueState) (cid : Key)
    (tms : List (Int × Message)) (nows : List Int)
    (hnd : JMap.NodupKeys s.mobileAppQueue.entries)
    (h0 : s.mobileAppQueue.get? cid = none)
    (hlen : nows.length = tms.length)
    (hfresh : ∀ u ∈ nows, ∀ tm ∈ tms, ¬ u > tm.1 + TTL) :
    (MessageQueue.dequeueList cid (MessageQueue.enqueueList cid s tms) nows).1
        = (MessageQueue.stampMsgs tms).map some
    ∧ ((MessageQueue.dequeueList cid
          (MessageQueue.enqueueList cid s tms) nows).2).mobileAppQueue.get? cid
        = none := by
  cases tms with
  | nil =>
    cases nows with
    | nil => exact ⟨rfl, h0⟩
    | cons u urest => simp at hlen
  | cons tm tms' =>
    have hadd : (MessageQueue.addMobileAppMessage s tm.1 cid
          tm.2).mobileAppQueue.get? cid
        = some [{ tm.2 with expiresAt := tm.1 + TTL }] := by
      simpa [MessageQueue.addMobileAppMessage, h0] using
        JMap.get?_set_self s.mobileAppQueue cid
          [{ tm.2 with expiresAt := tm.1 + TTL }]
    have henq := MessageQueue.enqueueList_get?_some cid tms' _ _ hadd
    have henq' : (MessageQueue.enqueueList cid s
          (tm :: tms')).mobileAppQueue.get? cid
        = some (MessageQueue.stampMsgs (tm :: tms')) := by
      simpa [MessageQueue.enqueueList, MessageQueue.stampMsgs] using henq
    have hnd' := MessageQueue.enqueueList_nodup cid (tm :: tms') s hnd
    refine MessageQueue.dequeueList_spec cid
      (MessageQueue.stampMsgs (tm :: tms')) _ nows hnd' henq'
      (by simp [MessageQueue.stampMsgs])
      (by simpa [MessageQueue.stampMsgs] using hlen) ?_
    intro u hu mm hmm
    rcases List.mem_map.mp hmm with ⟨tm', htm', rfl⟩
    simpa using hfresh u hu tm' htm'

/-- Witness for C4: two enqueues at `t = 0` then two dequeues at `5` and `6`
return the entries in enqueue order and leave the key absent. -/
theorem mobile_fifo_order_witness :
    (MessageQueue.dequeueList "c"
        (MessageQueue.enqueueList "c" MessageQueue.initState
          [(0, ⟨1, 99⟩), (0, ⟨2, 0⟩)]) [5, 6]).1
      = (MessageQueue.stampMsgs [(0, ⟨1, 99⟩), (0, ⟨2, 0⟩)]).map some
    ∧ ((MessageQueue.dequeueList "c"
          (MessageQueue.enqueueList "c" MessageQueue.initState
            [(0, ⟨1, 99⟩), (0, ⟨2, 0⟩)]) [5, 6]).2).mobileAppQueue.get? "c"
      = none :=
  mobile_fifo_order MessageQueue.initState "c" [(0, ⟨1, 99⟩), (0, ⟨2, 0⟩)]
    [5, 6] (by decide) (by decide) (by decide) (by decide)

/-- C5: after two successive controller upserts `A` then `B` on one key, a
take before `B`'s expiry returns `B` (restamped at its upsert), never `A`,
and the immediately following take returns none — delete-on-read. -/
theorem controller_latest_wins_delete_on_read (s : QueueState) (cid : Key)
    (t1 t2 u1 u2 : Int) (A B : Message)
    (hnd : JMap.NodupKeys s.controllerQueue.entries)
    (h : u1 < t2 + TTL) :
    (MessageQueue.getControllerMessage
        (MessageQueue.addControllerMessage
          (MessageQueue.addControllerMessage s t1 cid A) t2 cid B) u1 cid).1
      = some { B with expiresAt := t2 + TTL }
    ∧ (MessageQueue.getControllerMessage
        (MessageQueue.getControllerMessage
          (MessageQueue.addControllerMessage
            (MessageQueue.addControllerMessage s t1 cid A) t2 cid B)
          u1 cid).2 u2 cid).1 = none := by
  set s2 := MessageQueue.addControllerMessage
    (MessageQueue.addControllerMessage s t1 cid A) t2 cid B with hs2
  have hget : s2.controllerQueue.get? cid = some { B with expiresAt := t2 + TTL } := by
    rw [hs2]
    simpa [MessageQueue.addControllerMessage] using
      JMap.get?_set_self
        (MessageQueue.addControllerMessage s t1 cid A).controllerQueue cid
        { B with expiresAt := t2 + TTL }
  have hne : ¬ u1 > t2 + TTL := by omega
  have hstep : MessageQueue.getControllerMessage s2 u1 cid
      = (some { B with expiresAt := t2 + TTL },
          { s2 with controllerQueue := s2.controllerQueue.delete cid }) := by
    unfold MessageQueue.getControllerMessage
    rw [hget]
    simp [hne]
  have hnd2 : JMap.NodupKeys s2.controllerQueue.entries := by
    rw [hs2]
    simp only [MessageQueue.addControllerMessage, JMap.set]
    exact JMap.nodup_setEntries _ cid _ (JMap.nodup_setEntries _ cid _ hnd)
  have hnone : ({ s2 with controllerQueue := s2.controllerQueue.delete cid } :
      QueueState).controllerQueue.get? cid = none :=
    JMap.get?_delete_self s2.controllerQueue cid hnd2
  constructor
  · rw [hstep]
  · rw [hstep]
    unfold MessageQueue.getControllerMessage
    rw [hnone]

/-- Witness for C5 on the empty state with distinct payloads. -/
theorem controller_latest_wins_delete_on_read_witness :
    (MessageQueue.getControllerMessage
        (MessageQueue.addControllerMessage
          (MessageQueue.addControllerMessage MessageQueue.initState 0 "c" ⟨1, 5⟩)
          0 "c" ⟨2, 7⟩) 1 "c").1 = some ⟨2, 660000⟩
    ∧ (MessageQueue.getControllerMessage
        (MessageQueue.getControllerMessage
          (MessageQueue.addControllerMessage
            (MessageQueue.addControllerMessage MessageQueue.initState 0 "c" ⟨1, 5⟩)
            0 "c" ⟨2, 7⟩) 1 "c").2 2 "c").1 = none :=
  controller_latest_wins_delete_on_read MessageQueue.initState "c" 0 0 1 2
    ⟨1, 5⟩ ⟨2, 7⟩ (by decide) (by decide)

/-! ### Lemmas about the rate-limiter engine -/

namespace RateLimiter

/-- Filtering is idempotent. -/
theorem filter_filter_self {β : Type} (p : β → Bool) (l : List β) :
    (l.filter p).filter p = l.filter p := by
  induction l with
  | nil => rfl
  | cons a rest ih => by_cases h : p a <;> simp [List.filter_cons, h, ih]

/-- A map without the key reports `none` for it. -/
theorem get?_eq_none_of_has_false {β : Type} (m : JMap β) (k : Key)
    (h : m.has k = false) : m.get? k = none := by
  unfold JMap.has at h
  exact Option.not_isSome_iff_eq_none.mp (by simp [h])

/-- The boolean `checkLimit` returns: allowed iff fewer than 25 timestamps
survive the window filter. -/
theorem checkLimit_fst (s : RateLimiterState) (now : Int) (key : Key) :
    (checkLimit s now key).1
      = decide ((((s.requests.get? key).getD []).filter
          (fun ts => ts > now - WINDOW)).length < 25) := by
  by_cases hhas : s.requests.has key
  · rcases Option.isSome_iff_exists.mp (by simpa [JMap.has] using hhas) with
      ⟨timestamps, hts⟩
    by_cases hlen : (timestamps.filter (fun ts => ts > now - WINDOW)).length ≥ 25
    · simp [checkLimit, hhas, hts, hlen, Nat.not_lt.mpr hlen]
    · simp [checkLimit, hhas, hts, hlen, Nat.lt_of_not_le hlen]
  · have hnone := get?_eq_none_of_has_false s.requests key (by simpa using hhas)
    simp [checkLimit, hhas, hnone, JMap.get?_set_self]

/-- The state `checkLimit` leaves: the probed key holds its filtered list
(ending as `[]` for a previously-untracked key); other keys are untouched. -/
theorem checkLimit_snd_get? (s : RateLimiterState) (now : Int) (key k' : Key) :
    ((checkLimit s now key).2).requests.get? k'
      = if k' = key
        then some (((s.requests.get? key).getD []).filter
            (fun ts => ts > now - WINDOW))
        else s.requests.get? k' := by
  by_cases hhas : s.requests.has key
  · rcases Option.isSome_iff_exists.mp (by simpa [JMap.has] using hhas) with
      ⟨timestamps, hts⟩
    by_cases hk : k' = key
    · subst hk
      by_cases hlen : (timestamps.filter (fun ts => ts > now - WINDOW)).length ≥ 25 <;>
        simp [checkLimit, hhas, hts, hlen, JMap.get?_set_self]
    · by_cases hlen : (timestamps.filter (fun ts => ts > now - WINDOW)).length ≥ 25 <;>
        simp [checkLimit, hhas, hts, hlen, hk, JMap.get?_set_ne]
  · have hnone := get?_eq_none_of_has_false s.requests key (by simpa using hhas)
    by_cases hk : k' = key
    · subst hk
      simp [checkLimit, hhas, hnone, JMap.get?_set_self]
    · simp [checkLimit, hhas, hnone, hk, JMap.get?_set_self, JMap.get?_set_ne]

/-- Keys surviving the limiter sweep were already present. -/
theorem keys_cleanEntries_subset (now : Int) :
    ∀ (l : List (Key × List Int)) (k : Key),
      k ∈ JMap.keysOf (cleanEntries now l) → k ∈ JMap.keysOf l := by
  intro l
  induction l with
  | nil => intro k hk; simpa [cleanEntries] using hk
  | cons p rest ih =>
    intro k hk
    rcases p with ⟨k0, ts0⟩
    by_cases hf : (ts0.filter (fun ts => ts > now - WINDOW)).isEmpty
    · simp only [cleanEntries, hf, if_pos] at hk
      exact List.mem_cons_of_mem k0 (ih k hk)
    · simp only [cleanEntries, hf, Bool.false_eq_true, if_false, JMap.keysOf,
        List.map_cons, List.mem_cons] at hk
      rcases hk with hk | hk
      · simp [JMap.keysOf, hk]
      · exact List.mem_cons_of_mem k0 (ih k hk)

/-- The limiter sweep keeps keys duplicate-free. -/
theorem nodup_cleanEntries (now : Int) :
    ∀ (l : List (Key × List Int)), JMap.NodupKeys l →
      JMap.NodupKeys (cleanEntries now l) := by
  intro l
  induction l with
  | nil => intro h; simpa [cleanEntries] using h
  | cons p rest ih =>
    intro h
    rcases p with ⟨k0, ts0⟩
    simp only [JMap.NodupKeys, JMap.keysOf, List.map_cons, List.nodup_cons] at h
    by_cases hf : (ts0.filter (fun ts => ts > now - WINDOW)).isEmpty
    · simp only [cleanEntries, hf, if_pos]
      exact ih h.2
    · simp only [cleanEntries, hf, Bool.false_eq_true, if_false,
        JMap.NodupKeys, JMap.keysOf, List.map_cons, List.nodup_cons]
      refine ⟨fun hm => h.1 ?_, ih h.2⟩
      exact keys_cleanEntries_subset now rest k0 hm

/-- Every binding surviving the limiter sweep holds a nonempty list. -/
theorem cleanEntries_values_nonempty (now : Int) :
    ∀ (l : List (Key × List Int)), ∀ p ∈ cleanEntries now l, p.2 ≠ [] := by
  intro l
  induction l with
  | nil => intro p hp; simp [cleanEntries] at hp
  | cons q rest ih =>
    intro p hp
    rcases q with ⟨k0, ts0⟩
    by_cases hf : (ts0.filter (fun ts => ts > now - WINDOW)).isEmpty
    · simp only [cleanEntries, hf, if_pos] at hp
      exact ih p hp
    · simp only [cleanEntries, hf, Bool.false_eq_true, if_false,
        List.mem_cons] at hp
      rcases hp with hp | hp
      · rw [hp]
        simpa [List.isEmpty_iff] using hf
      · exact ih p hp

/-- What the sweep leaves for a key, on a duplicate-free map: its filtered
list when nonempty, otherwise nothing. -/
theorem getEntry_cleanEntries (now : Int) :
    ∀ (l : List (Key × List Int)) (k : Key), JMap.NodupKeys l →
      JMap.getEntry (cleanEntries now l) k
        = (if (((JMap.getEntry l k).getD []).filter
              (fun ts => ts > now - WINDOW)).isEmpty
           then none
           else some (((JMap.getEntry l k).getD []).filter
              (fun ts => ts > now - WINDOW))) := by
  intro l
  induction l with
  | nil => intro k _; simp [cleanEntries, JMap.getEntry]
  | cons p rest ih =>
    intro k hnd
    rcases p with ⟨k0, ts0⟩
    simp only [JMap.NodupKeys, JMap.keysOf, List.map_cons, List.nodup_cons] at hnd
    by_cases hk : k0 = k
    · subst hk
      have hnotin : k0 ∉ JMap.keysOf rest := fun hm => hnd.1 (by simpa [JMap.keysOf] using hm)
      by_cases hf : (ts0.filter (fun ts => ts > now - WINDOW)).isEmpty
      · simp only [cleanEntries, hf, if_pos]
        have : k0 ∉ JMap.keysOf (cleanEntries now rest) :=
          fun hm => hnotin (keys_cleanEntries_subset now rest k0 hm)
        rw [JMap.getEntry_eq_none_of_not_mem (cleanEntries now rest) k0 this]
        simp [JMap.getEntry, hf]
      · simp only [cleanEntries, hf, Bool.false_eq_true, if_false]
        simp [JMap.getEntry, hf]
    · by_cases hf : (ts0.filter (fun ts => ts > now - WINDOW)).isEmpty
      · simp only [cleanEntries, hf, if_pos]
        rw [ih k hnd.2]
        simp [JMap.getEntry, hk]
      · simp only [cleanEntries, hf, Bool.false_eq_true, if_false]
        have := ih k hnd.2
        simp only [JMap.getEntry, hk, if_neg, Bool.false_eq_true]
        exact this

end RateLimiter

/-! ### Claim theorems for the rate-limiter engine -/

/-- C3: on any state whose recorded timestamps for the key do not lie in the
future, `checkLimit` returns false iff at least 25 recorded timestamps lie in
the half-open trailing window (now−30 s, now]; a timestamp exactly 30 s old
is excluded by the strict comparison; and since the count is recomputed from
the stored timestamps at every call, allowance returns automatically once
enough timestamps age out, with no reset call. -/
theorem checkLimit_blocks_iff (s : RateLimiterState) (now : Int) (key : Key)
    (h : ∀ ts ∈ (s.requests.get? key).getD [], ts ≤ now) :
    (RateLimiter.checkLimit s now key).1 = false
      ↔ 25 ≤ (((s.requests.get? key).getD []).filter
          (fun ts => now - RateLimiter.WINDOW < ts ∧ ts ≤ now)).length := by
  have hcong : ((s.requests.get? key).getD []).filter
        (fun ts => decide (now - RateLimiter.WINDOW < ts ∧ ts ≤ now))
      = ((s.requests.get? key).getD []).filter
          (fun ts => ts > now - RateLimiter.WINDOW) := by
    apply List.filter_congr
    intro ts hts
    have h1 : ts ≤ now := h ts hts
    apply decide_eq_decide.mpr
    constructor
    · exact fun hh => hh.1
    · exact fun hh => ⟨hh, h1⟩
  rw [RateLimiter.checkLimit_fst, hcong]
  simp [decide_eq_false_iff_not, Nat.not_lt]

/-- Witness for C3: 25 stored timestamps at `now = 30000`, one of them
exactly 30 s old and hence excluded, so the limiter still allows. -/
theorem checkLimit_blocks_iff_witness :
    (RateLimiter.checkLimit
        (⟨⟨[("k", 0 :: List.replicate 24 10000)]⟩⟩ : RateLimiterState)
        30000 "k").1 = false
      ↔ 25 ≤ ((((⟨⟨[("k", 0 :: List.replicate 24 10000)]⟩⟩ :
              RateLimiterState).requests.get? "k").getD []).filter
          (fun ts => 30000 - RateLimiter.WINDOW < ts ∧ ts ≤ 30000)).length :=
  checkLimit_blocks_iff ⟨⟨[("k", 0 :: List.replicate 24 10000)]⟩⟩ 30000 "k"
    (by decide)

/-- C6: the source `checkLimit` is a pure check — it leaves every key's in-window
timestamp list exactly as it was (no timestamp for the current attempt is
added to any key; only `recordRequest` appends), so consecutive `checkLimit`
calls without an intervening `recordRequest` all return the same result. -/
theorem checkLimit_is_pure_check (s : RateLimiterState) (now : Int)
    (key : Key) :
    (∀ k, RateLimiter.inWindowOf ((RateLimiter.checkLimit s now key).2) k now
        = RateLimiter.inWindowOf s k now)
    ∧ (∀ k,
        (RateLimiter.checkLimit ((RateLimiter.checkLimit s now key).2) now k).1
          = (RateLimiter.checkLimit s now k).1) := by
  have hwin : ∀ k,
      RateLimiter.inWindowOf ((RateLimiter.checkLimit s now key).2) k now
        = RateLimiter.inWindowOf s k now := by
    intro k
    unfold RateLimiter.inWindowOf
    rw [RateLimiter.checkLimit_snd_get?]
    by_cases hk : k = key
    · subst hk
      simp [RateLimiter.filter_filter_self]
    · simp [hk]
  refine ⟨hwin, fun k => ?_⟩
  rw [RateLimiter.checkLimit_fst, RateLimiter.checkLimit_fst]
  have hw := hwin k
  unfold RateLimiter.inWindowOf at hw
  rw [hw]

/-- C7: running the sweep immediately before a `checkLimit` never changes
the returned boolean, at any fixed instant, on any duplicate-free state:
the sweep is pure memory reclamation. -/
theorem sweep_preserves_checkLimit (s : RateLimiterState) (now : Int)
    (key : Key) (hnd : JMap.NodupKeys s.requests.entries) :
    (RateLimiter.checkLimit (RateLimiter.cleanup s now) now key).1
      = (RateLimiter.checkLimit s now key).1 := by
  rw [RateLimiter.checkLimit_fst, RateLimiter.checkLimit_fst]
  have hchar : (RateLimiter.cleanup s now).requests.get? key
      = (if (((s.requests.get? key).getD []).filter
            (fun ts => ts > now - RateLimiter.WINDOW)).isEmpty
         then none
         else some (((s.requests.get? key).getD []).filter
            (fun ts => ts > now - RateLimiter.WINDOW))) :=
    RateLimiter.getEntry_cleanEntries now s.requests.entries key hnd
  rw [hchar]
  by_cases hemp : (((s.requests.get? key).getD []).filter
      (fun ts => ts > now - RateLimiter.WINDOW)).isEmpty
  · have hnil : ((s.requests.get? key).getD []).filter
        (fun ts => ts > now - RateLimiter.WINDOW) = [] := by
      simpa [List.isEmpty_iff] using hemp
    simp [hemp, hnil]
  · simp only [hemp, Bool.false_eq_true, if_false, Option.getD_some]
    rw [RateLimiter.filter_filter_self]

/-- Witness for C7 on a state with one live key and one stale key. -/
theorem sweep_preserves_checkLimit_witness :
    (RateLimiter.checkLimit
        (RateLimiter.cleanup
          (⟨⟨[("k", [5]), ("j", [])]⟩⟩ : RateLimiterState) 10) 10 "k").1
      = (RateLimiter.checkLimit
          (⟨⟨[("k", [5]), ("j", [])]⟩⟩ : RateLimiterState) 10 "k").1 :=
  sweep_preserves_checkLimit ⟨⟨[("k", [5]), ("j", [])]⟩⟩ 10 "k" (by decide)

/-- C8 counterexample: from the fresh limiter, a single `checkLimit("a")`
call registers `"a"` with an empty timestamp list, so `stats()` reports
`trackedKeys = 1` while the number of keys holding any retained timestamp
is 0 — refuting the claimed equality at a reachable state. -/
theorem trackedKeys_counts_timestampless_key :
    (RateLimiter.getStats
        ((RateLimiter.checkLimit RateLimiter.initState 1 "a").2)).trackedKeys = 1
    ∧ (((RateLimiter.checkLimit RateLimiter.initState 1 "a").2).requests.entries.filter
        (fun p => !p.2.isEmpty)).length = 0 := by decide

/-- C8 (amended): the reported `trackedKeys` is the raw number of keys in the
request map, which can exceed the number of keys with a retained timestamp
(keys probed by `checkLimit` but never recorded, or fully aged out, linger
with empty lists until the sweep); immediately after a sweep every stored
key holds a nonempty list, and `trackedKeys` equals the number of distinct
keys with a retained timestamp. -/
theorem trackedKeys_after_sweep (s : RateLimiterState) (now : Int)
    (hnd : JMap.NodupKeys s.requests.entries) :
    (RateLimiter.getStats (RateLimiter.cleanup s now)).trackedKeys
      = ((RateLimiter.cleanup s now).requests.entries.filter
          (fun p => !p.2.isEmpty)).length
    ∧ JMap.NodupKeys (RateLimiter.cleanup s now).requests.entries := by
  constructor
  · have hall : ∀ p ∈ (RateLimiter.cleanup s now).requests.entries,
        !p.2.isEmpty := by
      intro p hp
      have hne := RateLimiter.cleanEntries_values_nonempty now
        s.requests.entries p hp
      simpa [List.isEmpty_iff] using hne
    rw [List.filter_eq_self.mpr hall]
    rfl
  · exact RateLimiter.nodup_cleanEntries now s.requests.entries hnd

/-- Witness for C8 (amended) on a state with one live and one stale key. -/
theorem trackedKeys_after_sweep_witness :
    (RateLimiter.getStats (RateLimiter.cleanup
          (⟨⟨[("k", [5]), ("j", [])]⟩⟩ : RateLimiterState) 10)).trackedKeys
      = ((RateLimiter.cleanup
            (⟨⟨[("k", [5]), ("j", [])]⟩⟩ : RateLimiterState) 10).requests.entries.filter
          (fun p => !p.2.isEmpty)).length
    ∧ JMap.NodupKeys (RateLimiter.cleanup
        (⟨⟨[("k", [5]), ("j", [])]⟩⟩ : RateLimiterState) 10).requests.entries :=
  trackedKeys_after_sweep ⟨⟨[("k", [5]), ("j", [])]⟩⟩ 10 (by decide)

end SeaAir
